import Mathlib

/-!
Shallow embedding of the `NamedVec` library (src/src/lib.rs).

A `NamedVec<T>` is a `Vec<T>` together with a `HashMap<String, usize>` mapping
each element's name to its current index.  We model

  * `Vec<T>`                as `List α`,
  * `HashMap String usize`  as an association list `List (String × Nat)` whose
    observable operations (`get`, `insert`, `remove`, `values`) are embedded
    below; the standing invariant keeps its keys `Nodup`, which makes the
    association list observationally identical to a hash map (hash-map
    equality is entry-set equality, i.e. `mapGet`-extensionality here),
  * panics                  as `none` / `.error` results; for `swap`, whose
    `Vec::swap` call panics only after the two `map.insert`s have already run,
    the `.error` payload is the collection's state at the moment of the panic,
  * `T: Named`              as a type `α` together with a name function
    `nm : α → String` passed explicitly.

Capacity (`with_capacity`, `reserve`, `shrink_to_fit`, `capacity`) has no
observable content in this model, so the capacity operations are identity on
the observable state, exactly as the source only touches allocation headroom.
-/

namespace NamedVecRs

abbrev Name := String

/-- The observable content of `HashMap<String, usize>`: an association list. -/
abbrev Map := List (Name × Nat)

/-- `HashMap::get`: the value of the (under nodup keys, unique) entry with the
given key. -/
def mapGet : Map → Name → Option Nat
  | [], _ => none
  | (k, v) :: rest, key => if k = key then some v else mapGet rest key

/-- `HashMap::insert`: replace the value if the key is present, otherwise add
the entry. -/
def mapInsert : Map → Name → Nat → Map
  | [], key, val => [(key, val)]
  | (k, v) :: rest, key, val =>
      if k = key then (key, val) :: rest else (k, v) :: mapInsert rest key val

/-- `HashMap::remove`: drop the entry with the given key, if present. -/
def mapRemove : Map → Name → Map
  | [], _ => []
  | (k, v) :: rest, key => if k = key then rest else (k, v) :: mapRemove rest key

/-- A hash map cannot hold two entries with the same key; reachable states of
the model always satisfy this. -/
def keysNodup (m : Map) : Prop := (m.map Prod.fst).Nodup

/-- `self.map.values().max()` from `truncate`: the maximum value over all
entries, `none` when the map is empty. -/
def valuesMax (m : Map) : Option Nat := (m.map Prod.snd).max?

/-- `NamedVec<T>` (src/src/lib.rs, lines 13-17). -/
structure NamedVec (α : Type) where
  map : Map
  items : List α
deriving DecidableEq, Repr

/-- `Lookup<'a>`: a name or a position (src/src/lib.rs, lines 256-259). -/
inductive Lookup where
  | name : Name → Lookup
  | index : Nat → Lookup
deriving DecidableEq, Repr

variable {α : Type}

/-- `NamedVec::new`. -/
def NamedVec.new : NamedVec α := { map := [], items := [] }

/-- `NamedVec::with_capacity` (capacity is not observable in the model). -/
def with_capacity (_capacity : Nat) : NamedVec α := { map := [], items := [] }

/-- The list of element names, in sequence order. -/
def names (nm : α → Name) (c : NamedVec α) : List Name := c.items.map nm

/-- `NamedVec::len`. -/
def NamedVec.len (c : NamedVec α) : Nat := c.items.length

/-- `NamedVec::is_empty`. -/
def NamedVec.is_empty (c : NamedVec α) : Bool := c.len = 0

/-- `NamedVec::push`: replace in place when the name is taken, append
otherwise.  `self.items[i] = item` panics (`none`) when `i` is out of bounds;
under the invariant this cannot happen. -/
def push (nm : α → Name) (c : NamedVec α) (item : α) : Option (NamedVec α) :=
  match mapGet c.map (nm item) with
  | some i =>
      if i < c.items.length then
        some { c with items := c.items.set i item }
      else
        none
  | none =>
      some { map := mapInsert c.map (nm item) c.items.length,
             items := c.items ++ [item] }

/-- `NamedVec::reserve` (capacity is not observable in the model). -/
def reserve (c : NamedVec α) (_additional : Nat) : NamedVec α := c

/-- `NamedVec::shrink_to_fit` (capacity is not observable in the model). -/
def shrink_to_fit (c : NamedVec α) : NamedVec α := c

/-- The removal loop of `truncate`:
`for item in self.items[len..max+1].iter() { self.map.remove(item.name()); }`. -/
def removeNames (nm : α → Name) (l : List α) (m : Map) : Map :=
  l.foldl (fun acc it => mapRemove acc (nm it)) m

/-- `NamedVec::truncate` (src/src/lib.rs, lines 79-88).  The `unwrap` on
`values().max()` and the slice `self.items[len..max+1]` each panic (`none`)
when their preconditions fail; under the invariant they cannot. -/
def truncate (nm : α → Name) (c : NamedVec α) (len : Nat) : Option (NamedVec α) :=
  if len < c.items.length then
    match valuesMax c.map with
    | none => none
    | some mx =>
        if len ≤ mx + 1 ∧ mx + 1 ≤ c.items.length then
          some { map := removeNames nm ((c.items.drop len).take (mx + 1 - len)) c.map,
                 items := c.items.take len }
        else
          none
  else
    some c

/-- `NamedVec::clear`. -/
def clear (_c : NamedVec α) : NamedVec α := { map := [], items := [] }

/-- `NamedVec::index_from_lookup` (src/src/lib.rs, lines 164-173): a name is
looked up in the map; a position is returned as-is, with no bounds check. -/
def index_from_lookup (c : NamedVec α) : Lookup → Option Nat
  | .name n => mapGet c.map n
  | .index i => some i

/-- `NamedVec::name_from_lookup` (src/src/lib.rs, lines 175-184): a name is
returned as-is; a position is resolved through `items.get`. -/
def name_from_lookup (nm : α → Name) (c : NamedVec α) : Lookup → Option Name
  | .name n => some n
  | .index i => c.items[i]?.map nm

/-- `NamedVec::get`. -/
def NamedVec.get (c : NamedVec α) (lookup : Lookup) : Option α :=
  (index_from_lookup c lookup).bind fun i => c.items[i]?

/-- `NamedVec::pop` (src/src/lib.rs, lines 154-162): `none` result on empty,
otherwise remove the last element and its map entry. -/
def pop (nm : α → Name) (c : NamedVec α) : Option α × NamedVec α :=
  match c.items.getLast? with
  | none => (none, c)
  | some last_item =>
      (some last_item,
       { map := mapRemove c.map (nm last_item), items := c.items.dropLast })

/-- `NamedVec::swap` (src/src/lib.rs, lines 130-146).  `.error s` models a
panic with `s` the collection's state at that moment: the two failing
`unwrap`s fire before any mutation, while a panic inside `self.items.swap`
would fire after the two `map.insert`s already ran. -/
def swap (nm : α → Name) (c : NamedVec α) (first second : Lookup) :
    Except (NamedVec α) (NamedVec α) :=
  match index_from_lookup c first with
  | none => .error c
  | some old_i1 =>
    match index_from_lookup c second with
    | none => .error c
    | some old_i2 =>
      if old_i1 = old_i2 then
        .ok c
      else
        match name_from_lookup nm c first with
        | none => .error c
        | some old_s1 =>
          match name_from_lookup nm c second with
          | none => .error c
          | some old_s2 =>
            let m := mapInsert (mapInsert c.map old_s1 old_i2) old_s2 old_i1
            if h : old_i1 < c.items.length ∧ old_i2 < c.items.length then
              .ok { map := m,
                    items := (c.items.set old_i1 c.items[old_i2]).set
                               old_i2 c.items[old_i1] }
            else
              .error { c with map := m }

/-- The standing invariant: every map entry points at an element carrying that
name, and every element's name is an entry pointing back at its position; the
map's keys are nodup (a hash map cannot hold a key twice).  Stated over list
membership so that it is decidable on concrete collections. -/
def Inv (nm : α → Name) (c : NamedVec α) : Prop :=
  keysNodup c.map ∧
  (∀ p ∈ c.map, (names nm c)[p.2]? = some p.1) ∧
  (∀ q ∈ (names nm c).enum, (q.2, q.1) ∈ c.map)

/-- Collections reachable from an empty collection by the public operations;
a transition exists only when the operation returns normally. -/
inductive Reachable (nm : α → Name) : NamedVec α → Prop where
  | newStep : Reachable nm NamedVec.new
  | withCapacityStep (n : Nat) : Reachable nm (with_capacity n)
  | pushStep {c c' : NamedVec α} {item : α} :
      Reachable nm c → push nm c item = some c' → Reachable nm c'
  | popStep {c : NamedVec α} :
      Reachable nm c → Reachable nm (pop nm c).2
  | truncateStep {c c' : NamedVec α} {len : Nat} :
      Reachable nm c → truncate nm c len = some c' → Reachable nm c'
  | clearStep {c : NamedVec α} :
      Reachable nm c → Reachable nm (clear c)
  | swapStep {c c' : NamedVec α} {k1 k2 : Lookup} :
      Reachable nm c → swap nm c k1 k2 = .ok c' → Reachable nm c'
  | reserveStep {c : NamedVec α} (n : Nat) :
      Reachable nm c → Reachable nm (reserve c n)
  | shrinkStep {c : NamedVec α} :
      Reachable nm c → Reachable nm (shrink_to_fit c)

/-- A lookup key that is a name absent from the map. -/
def nameAbsent (c : NamedVec α) : Lookup → Prop
  | .name n => mapGet c.map n = none
  | .index _ => False

/-- A lookup key that is a position at or beyond the current length. -/
def posOut (c : NamedVec α) : Lookup → Prop
  | .name _ => False
  | .index i => c.items.length ≤ i

/-- The standing invariant restated through `mapGet`: the form used in the
proofs.  Equivalent to `Inv` (see `Inv_iff_invGet`). -/
def InvGet (nm : α → Name) (c : NamedVec α) : Prop :=
  keysNodup c.map ∧
  (∀ n i, mapGet c.map n = some i → (names nm c)[i]? = some n) ∧
  (∀ i n, (names nm c)[i]? = some n → mapGet c.map n = some i)

instance (nm : α → Name) (c : NamedVec α) : Decidable (Inv nm c) := by
  unfold Inv keysNodup
  infer_instance

/-- Concrete element type for test collections: a name paired with a payload. -/
def pairName : Name × Nat → Name := Prod.fst

/-- A concrete two-element collection: "a" at position 0, "b" at position 1. -/
def cAB : NamedVec (Name × Nat) :=
  { map := [("a", 0), ("b", 1)], items := [("a", 10), ("b", 20)] }

/-- A concrete five-element collection, for the truncate-boundary scenario. -/
def cFive : NamedVec (Name × Nat) :=
  { map := [("a", 0), ("b", 1), ("c", 2), ("d", 3), ("e", 4)],
    items := [("a", 10), ("b", 20), ("c", 30), ("d", 40), ("e", 50)] }

/-! ### Association-list lemmas -/

theorem mapGet_eq_none_iff {m : Map} {n : Name} :
    mapGet m n = none ↔ n ∉ m.map Prod.fst := by
  induction m with
  | nil => simp [mapGet]
  | cons p rest ih =>
      obtain ⟨k, v⟩ := p
      rw [mapGet, List.map_cons, List.mem_cons]
      by_cases h : k = n
      · subst h
        simp
      · rw [if_neg h, ih]
        have hnk : ¬n = k := fun hh => h hh.symm
        simp [hnk]

theorem mapGet_mapInsert_self (m : Map) (k : Name) (v : Nat) :
    mapGet (mapInsert m k v) k = some v := by
  induction m with
  | nil => rw [mapInsert, mapGet, if_pos rfl]
  | cons p rest ih =>
      obtain ⟨k0, v0⟩ := p
      by_cases h : k0 = k
      · rw [mapInsert, if_pos h, mapGet, if_pos rfl]
      · rw [mapInsert, if_neg h, mapGet, if_neg h, ih]

theorem mapGet_mapInsert_ne {m : Map} {k n : Name} {v : Nat} (h : n ≠ k) :
    mapGet (mapInsert m k v) n = mapGet m n := by
  induction m with
  | nil =>
      simp [mapInsert, mapGet, Ne.symm h]
  | cons p rest ih =>
      obtain ⟨k0, v0⟩ := p
      by_cases h0 : k0 = k
      · subst h0
        rw [mapInsert, if_pos rfl, mapGet, if_neg (fun hh : k0 = n => h hh.symm),
            mapGet, if_neg (fun hh : k0 = n => h hh.symm)]
      · rw [mapInsert, if_neg h0]
        by_cases h1 : k0 = n
        · rw [mapGet, if_pos h1, mapGet, if_pos h1]
        · rw [mapGet, if_neg h1, mapGet, if_neg h1, ih]

theorem mapRemove_sublist (m : Map) (k : Name) : List.Sublist (mapRemove m k) m := by
  induction m with
  | nil => exact List.Sublist.refl _
  | cons p rest ih =>
      obtain ⟨k0, v0⟩ := p
      by_cases h : k0 = k
      · rw [mapRemove, if_pos h]
        exact List.sublist_cons_self _ _
      · rw [mapRemove, if_neg h]
        exact ih.cons₂ _

theorem keysNodup_mapRemove {m : Map} (h : keysNodup m) (k : Name) :
    keysNodup (mapRemove m k) :=
  ((mapRemove_sublist m k).map Prod.fst).nodup h

theorem mem_keys_mapInsert {m : Map} {k n : Name} {v : Nat} :
    n ∈ (mapInsert m k v).map Prod.fst ↔ n = k ∨ n ∈ m.map Prod.fst := by
  induction m with
  | nil => simp [mapInsert]
  | cons p rest ih =>
      obtain ⟨k0, v0⟩ := p
      by_cases h : k0 = k
      · subst h
        rw [mapInsert, if_pos rfl]
        simp
      · rw [mapInsert, if_neg h, List.map_cons, List.map_cons, List.mem_cons,
            List.mem_cons, ih]
        tauto

theorem keysNodup_mapInsert {m : Map} (h : keysNodup m) (k : Name) (v : Nat) :
    keysNodup (mapInsert m k v) := by
  induction m with
  | nil =>
      rw [mapInsert]
      exact List.nodup_singleton k
  | cons p rest ih =>
      obtain ⟨k0, v0⟩ := p
      unfold keysNodup at h
      rw [List.map_cons, List.nodup_cons] at h
      obtain ⟨hk0, hrest⟩ := h
      by_cases hkk : k0 = k
      · subst hkk
        rw [mapInsert, if_pos rfl]
        unfold keysNodup
        rw [List.map_cons, List.nodup_cons]
        exact ⟨hk0, hrest⟩
      · rw [mapInsert, if_neg hkk]
        unfold keysNodup
        rw [List.map_cons, List.nodup_cons]
        refine ⟨fun hmem => ?_, ih hrest⟩
        rcases mem_keys_mapInsert.mp hmem with h1 | h1
        · exact hkk h1
        · exact hk0 h1

theorem mem_of_mapGet_eq_some {m : Map} {n : Name} {v : Nat}
    (h : mapGet m n = some v) : (n, v) ∈ m := by
  induction m with
  | nil => simp [mapGet] at h
  | cons p rest ih =>
      obtain ⟨k0, v0⟩ := p
      by_cases hk : k0 = n
      · rw [mapGet, if_pos hk] at h
        injection h with hv
        subst hk
        subst hv
        exact List.mem_cons_self _ _
      · rw [mapGet, if_neg hk] at h
        exact List.mem_cons_of_mem _ (ih h)

theorem mapGet_eq_some_of_mem {m : Map} {n : Name} {v : Nat}
    (hnd : keysNodup m) (h : (n, v) ∈ m) : mapGet m n = some v := by
  induction m with
  | nil => simp at h
  | cons p rest ih =>
      obtain ⟨k0, v0⟩ := p
      unfold keysNodup at hnd
      rw [List.map_cons, List.nodup_cons] at hnd
      obtain ⟨hk0, hrest⟩ := hnd
      rcases List.mem_cons.mp h with h1 | h1
      · injection h1 with e1 e2
        subst e1
        subst e2
        rw [mapGet, if_pos rfl]
      · have hmem : n ∈ rest.map Prod.fst := List.mem_map_of_mem Prod.fst h1
        have hne : k0 ≠ n := fun hkn => hk0 (hkn ▸ hmem)
        rw [mapGet, if_neg hne]
        exact ih hrest h1

theorem mapGet_eq_some_iff_mem {m : Map} {n : Name} {v : Nat} (hnd : keysNodup m) :
    mapGet m n = some v ↔ (n, v) ∈ m :=
  ⟨mem_of_mapGet_eq_some, mapGet_eq_some_of_mem hnd⟩

theorem mapGet_mapRemove_ne {m : Map} {k n : Name} (h : n ≠ k) :
    mapGet (mapRemove m k) n = mapGet m n := by
  induction m with
  | nil => rw [mapRemove]
  | cons p rest ih =>
      obtain ⟨k0, v0⟩ := p
      by_cases h0 : k0 = k
      · subst h0
        rw [mapRemove, if_pos rfl, mapGet, if_neg (fun hh : k0 = n => h hh.symm)]
      · rw [mapRemove, if_neg h0]
        by_cases h1 : k0 = n
        · rw [mapGet, if_pos h1, mapGet, if_pos h1]
        · rw [mapGet, if_neg h1, mapGet, if_neg h1, ih]

theorem mem_mapRemove {m : Map} (hnd : keysNodup m) {k : Name} {p : Name × Nat} :
    p ∈ mapRemove m k ↔ p ∈ m ∧ p.1 ≠ k := by
  induction m with
  | nil => simp [mapRemove]
  | cons q rest ih =>
      obtain ⟨k0, v0⟩ := q
      unfold keysNodup at hnd
      rw [List.map_cons, List.nodup_cons] at hnd
      obtain ⟨hk0, hrest⟩ := hnd
      have hk0' : k0 ∉ rest.map Prod.fst := hk0
      by_cases h : k0 = k
      · subst h
        rw [mapRemove, if_pos rfl, List.mem_cons]
        constructor
        · intro hp
          have hp1 : p.1 ∈ rest.map Prod.fst := List.mem_map_of_mem Prod.fst hp
          refine ⟨Or.inr hp, fun hpk => hk0' ?_⟩
          rw [← hpk]
          exact hp1
        · rintro ⟨hor, hpk⟩
          rcases hor with heq | hmem
          · exact absurd (congrArg Prod.fst heq) hpk
          · exact hmem
      · rw [mapRemove, if_neg h, List.mem_cons, List.mem_cons, ih hrest]
        constructor
        · rintro (rfl | ⟨h1, h2⟩)
          · exact ⟨Or.inl rfl, fun hpk => h hpk⟩
          · exact ⟨Or.inr h1, h2⟩
        · rintro ⟨rfl | h1, h2⟩
          · exact Or.inl rfl
          · exact Or.inr ⟨h1, h2⟩

theorem mapGet_mapRemove_self {m : Map} (hnd : keysNodup m) (k : Name) :
    mapGet (mapRemove m k) k = none := by
  rw [mapGet_eq_none_iff]
  intro hmem
  rcases List.mem_map.mp hmem with ⟨p, hp, hpk⟩
  exact ((mem_mapRemove hnd).mp hp).2 hpk

theorem mapInsert_of_not_mem {m : Map} {k : Name} {v : Nat}
    (h : k ∉ m.map Prod.fst) : mapInsert m k v = m ++ [(k, v)] := by
  induction m with
  | nil => rw [mapInsert, List.nil_append]
  | cons p rest ih =>
      obtain ⟨k0, v0⟩ := p
      simp only [List.map_cons, List.mem_cons, not_or] at h
      rw [mapInsert, if_neg (fun hh : k0 = k => h.1 hh.symm), ih h.2,
          List.cons_append]

theorem valuesMax_spec {m : Map} {mx : Nat} (h : valuesMax m = some mx) :
    mx ∈ m.map Prod.snd ∧ ∀ b ∈ m.map Prod.snd, b ≤ mx := by
  haveI : Std.Antisymm (fun x1 x2 : Nat => x1 ≤ x2) :=
    ⟨fun h1 h2 => Nat.le_antisymm h1 h2⟩
  rw [valuesMax, List.max?_eq_some_iff] at h
  · exact h
  · exact fun a => Nat.le_refl a
  · intro a b
    rcases Nat.le_total a b with hab | hab
    · exact Or.inr (Nat.max_eq_right hab)
    · exact Or.inl (Nat.max_eq_left hab)
  · exact fun a b c => Nat.max_le

theorem valuesMax_of_ne_nil {m : Map} (h : m ≠ []) : valuesMax m ≠ none := by
  simp [valuesMax, List.max?_eq_none_iff, h]

/-! ### Lemmas about the removal loop of `truncate` -/

theorem removeNames_nil (nm : α → Name) (m : Map) : removeNames nm [] m = m := rfl

theorem removeNames_cons (nm : α → Name) (it : α) (l : List α) (m : Map) :
    removeNames nm (it :: l) m = removeNames nm l (mapRemove m (nm it)) := rfl

theorem removeNames_sublist (nm : α → Name) (l : List α) (m : Map) :
    List.Sublist (removeNames nm l m) m := by
  induction l generalizing m with
  | nil => exact List.Sublist.refl _
  | cons it l ih =>
      rw [removeNames_cons]
      exact (ih _).trans (mapRemove_sublist m (nm it))

theorem keysNodup_removeNames {m : Map} (h : keysNodup m) (nm : α → Name)
    (l : List α) : keysNodup (removeNames nm l m) :=
  ((removeNames_sublist nm l m).map Prod.fst).nodup h

theorem mem_removeNames {m : Map} (hnd : keysNodup m) {nm : α → Name} {l : List α}
    {p : Name × Nat} :
    p ∈ removeNames nm l m ↔ p ∈ m ∧ ∀ it ∈ l, nm it ≠ p.1 := by
  induction l generalizing m with
  | nil => simp [removeNames_nil]
  | cons it l ih =>
      rw [removeNames_cons, ih (keysNodup_mapRemove hnd _), mem_mapRemove hnd]
      constructor
      · rintro ⟨⟨h1, h2⟩, h3⟩
        refine ⟨h1, fun x hx => ?_⟩
        rcases List.mem_cons.mp hx with heq | hx2
        · subst heq
          exact fun hh => h2 hh.symm
        · exact h3 x hx2
      · rintro ⟨h1, h2⟩
        exact ⟨⟨h1, fun hh => h2 it (List.mem_cons_self _ _) hh.symm⟩,
               fun x hx => h2 x (List.mem_cons_of_mem _ hx)⟩

theorem mapGet_removeNames_of_not_mem {nm : α → Name} {l : List α} {m : Map}
    {n : Name} (h : ∀ it ∈ l, nm it ≠ n) :
    mapGet (removeNames nm l m) n = mapGet m n := by
  induction l generalizing m with
  | nil => rw [removeNames_nil]
  | cons it l ih =>
      rw [removeNames_cons, ih (fun x hx => h x (List.mem_cons_of_mem _ hx)),
          mapGet_mapRemove_ne (fun hh => h it (List.mem_cons_self _ _) hh.symm)]

theorem mapGet_removeNames_of_mem {nm : α → Name} {l : List α} {m : Map}
    {n : Name} (hnd : keysNodup m) (hit : ∃ it ∈ l, nm it = n) :
    mapGet (removeNames nm l m) n = none := by
  rw [mapGet_eq_none_iff]
  intro hmem
  rcases List.mem_map.mp hmem with ⟨p, hp, hpk⟩
  rcases hit with ⟨it, hitl, hitn⟩
  exact ((mem_removeNames hnd).mp hp).2 it hitl (hitn.trans hpk.symm)

/-! ### The two phrasings of the invariant -/

theorem names_getElem? (nm : α → Name) (c : NamedVec α) (i : Nat) :
    (names nm c)[i]? = c.items[i]?.map nm := by
  rw [names, List.getElem?_map]

theorem names_length (nm : α → Name) (c : NamedVec α) :
    (names nm c).length = c.items.length := by
  rw [names, List.length_map]

theorem Inv_iff_invGet (nm : α → Name) (c : NamedVec α) :
    Inv nm c ↔ InvGet nm c := by
  constructor
  · rintro ⟨hnd, h1, h2⟩
    refine ⟨hnd, fun n i hget => h1 _ (mem_of_mapGet_eq_some hget), fun i n hname => ?_⟩
    have hmem : (n, i) ∈ c.map := h2 (i, n) (List.mem_enum_iff_getElem?.mpr hname)
    exact mapGet_eq_some_of_mem hnd hmem
  · rintro ⟨hnd, h1, h2⟩
    refine ⟨hnd, fun p hp => h1 p.1 p.2 (mapGet_eq_some_of_mem hnd hp), fun q hq => ?_⟩
    have hname := List.mem_enum_iff_getElem?.mp hq
    exact mem_of_mapGet_eq_some (h2 q.1 q.2 hname)

theorem InvGet.keysNodup' {nm : α → Name} {c : NamedVec α} (h : InvGet nm c) :
    keysNodup c.map := h.1

theorem InvGet.lt_length {nm : α → Name} {c : NamedVec α} (h : InvGet nm c)
    {n : Name} {i : Nat} (hget : mapGet c.map n = some i) : i < c.items.length := by
  have := h.2.1 n i hget
  obtain ⟨hlt, -⟩ := List.getElem?_eq_some_iff.mp this
  rw [names_length] at hlt
  exact hlt

theorem InvGet.name_at {nm : α → Name} {c : NamedVec α} (h : InvGet nm c)
    {n : Name} {i : Nat} (hget : mapGet c.map n = some i) :
    c.items[i]?.map nm = some n := by
  have := h.2.1 n i hget
  rw [names_getElem?] at this
  exact this

/-! ### The invariant is preserved by every public operation -/

theorem invGet_new (nm : α → Name) : InvGet nm (NamedVec.new (α := α)) := by
  refine ⟨List.nodup_nil, fun n i hget => ?_, fun i n hname => ?_⟩
  · simp [NamedVec.new, mapGet] at hget
  · simp [names, NamedVec.new] at hname

theorem invGet_with_capacity (nm : α → Name) (n : Nat) :
    InvGet nm (with_capacity (α := α) n) :=
  invGet_new nm

theorem invGet_clear (nm : α → Name) (c : NamedVec α) : InvGet nm (clear c) :=
  invGet_new nm

theorem push_replace {nm : α → Name} {c : NamedVec α} {item : α} {i : Nat}
    (hget : mapGet c.map (nm item) = some i) (hlt : i < c.items.length) :
    push nm c item = some { c with items := c.items.set i item } := by
  simp only [push, hget, if_pos hlt]

theorem push_append {nm : α → Name} {c : NamedVec α} {item : α}
    (hget : mapGet c.map (nm item) = none) :
    push nm c item =
      some { map := mapInsert c.map (nm item) c.items.length,
             items := c.items ++ [item] } := by
  simp only [push, hget]

theorem invGet_push_replace {nm : α → Name} {c : NamedVec α} {item : α} {i : Nat}
    (h : InvGet nm c) (hget : mapGet c.map (nm item) = some i) :
    InvGet nm { c with items := c.items.set i item } := by
  obtain ⟨hnd, h1, h2⟩ := h
  have hname_i : (names nm c)[i]? = some (nm item) := h1 _ _ hget
  have hnames : names nm { c with items := c.items.set i item } =
      (names nm c).set i (nm item) := by
    simp [names]
  have hlen : i < (names nm c).length := by
    obtain ⟨hl, -⟩ := List.getElem?_eq_some_iff.mp hname_i
    exact hl
  refine ⟨hnd, fun n j hg => ?_, fun j n hn => ?_⟩
  · rw [hnames, List.getElem?_set]
    by_cases hij : i = j
    · subst hij
      rw [if_pos rfl, if_pos hlen]
      have h3 := h1 n i hg
      rw [h3] at hname_i
      injection hname_i with h4
      rw [h4]
    · rw [if_neg hij]
      exact h1 n j hg
  · rw [hnames, List.getElem?_set] at hn
    by_cases hij : i = j
    · subst hij
      rw [if_pos rfl, if_pos hlen] at hn
      injection hn with hn
      subst hn
      exact hget
    · rw [if_neg hij] at hn
      exact h2 j n hn

theorem invGet_push_append {nm : α → Name} {c : NamedVec α} {item : α}
    (h : InvGet nm c) (hget : mapGet c.map (nm item) = none) :
    InvGet nm { map := mapInsert c.map (nm item) c.items.length,
                items := c.items ++ [item] } := by
  obtain ⟨hnd, h1, h2⟩ := h
  have hnames :
      names nm { map := mapInsert c.map (nm item) c.items.length,
                 items := c.items ++ [item] }
        = names nm c ++ [nm item] := by
    simp [names]
  have hlen : (names nm c).length = c.items.length := names_length nm c
  refine ⟨keysNodup_mapInsert hnd _ _, fun n j hg => ?_, fun j n hn => ?_⟩
  · rw [hnames]
    by_cases hni : n = nm item
    · subst hni
      rw [mapGet_mapInsert_self] at hg
      injection hg with hg
      subst hg
      rw [← hlen, List.getElem?_concat_length]
    · rw [mapGet_mapInsert_ne hni] at hg
      have h3 := h1 n j hg
      obtain ⟨hjl, -⟩ := List.getElem?_eq_some_iff.mp h3
      rw [List.getElem?_append_left hjl]
      exact h3
  · rw [hnames] at hn
    rcases Nat.lt_trichotomy j (names nm c).length with hj | hj | hj
    · rw [List.getElem?_append_left hj] at hn
      have h3 := h2 j n hn
      have hni : n ≠ nm item := by
        intro hni
        rw [hni, hget] at h3
        exact absurd h3 (by simp)
      rw [mapGet_mapInsert_ne hni]
      exact h3
    · rw [hj, List.getElem?_concat_length] at hn
      injection hn with hn
      subst hn
      rw [hj, hlen, mapGet_mapInsert_self]
    · have hnone : ([nm item] : List Name)[j - (names nm c).length]? = none := by
        apply List.getElem?_eq_none
        simp only [List.length_singleton]
        omega
      rw [List.getElem?_append_right (Nat.le_of_lt hj), hnone] at hn
      exact absurd hn (by simp)

theorem invGet_push {nm : α → Name} {c c' : NamedVec α} {item : α}
    (h : InvGet nm c) (hp : push nm c item = some c') : InvGet nm c' := by
  cases hget : mapGet c.map (nm item) with
  | some i =>
      rw [push_replace hget (h.lt_length hget)] at hp
      injection hp with hp
      rw [← hp]
      exact invGet_push_replace h hget
  | none =>
      rw [push_append hget] at hp
      injection hp with hp
      rw [← hp]
      exact invGet_push_append h hget

theorem pop_empty {nm : α → Name} {c : NamedVec α} (h : c.items = []) :
    pop nm c = (none, c) := by
  have hl : c.items.getLast? = none := by
    rw [h]
    rfl
  simp only [pop, hl]

theorem pop_nonempty {nm : α → Name} {c : NamedVec α} {e : α}
    (h : c.items.getLast? = some e) :
    pop nm c =
      (some e, { map := mapRemove c.map (nm e), items := c.items.dropLast }) := by
  simp only [pop, h]

theorem invGet_pop {nm : α → Name} {c : NamedVec α} (h : InvGet nm c) :
    InvGet nm (pop nm c).2 := by
  obtain ⟨hnd, h1, h2⟩ := h
  cases hl : c.items.getLast? with
  | none =>
      simp only [pop, hl]
      exact ⟨hnd, h1, h2⟩
  | some e =>
      simp only [pop, hl]
      have hlast : c.items[c.items.length - 1]? = some e := by
        rw [← List.getLast?_eq_getElem?]
        exact hl
      have hLpos : 1 ≤ c.items.length := by
        rcases List.getElem?_eq_some_iff.mp hlast with ⟨hlt, -⟩
        omega
      have hnameL : (names nm c)[c.items.length - 1]? = some (nm e) := by
        rw [names_getElem?, hlast]
        rfl
      have hgetE : mapGet c.map (nm e) = some (c.items.length - 1) := h2 _ _ hnameL
      have hnames' :
          names nm { map := mapRemove c.map (nm e), items := c.items.dropLast }
            = (names nm c).dropLast := by
        simp [names]
      refine ⟨keysNodup_mapRemove hnd _, fun n j hg => ?_, fun j n hn => ?_⟩
      · have hne : n ≠ nm e := by
          intro he
          rw [he, mapGet_mapRemove_self hnd] at hg
          exact absurd hg (by simp)
        rw [mapGet_mapRemove_ne hne] at hg
        have h3 := h1 n j hg
        have hjL : j < c.items.length := by
          obtain ⟨hj, -⟩ := List.getElem?_eq_some_iff.mp h3
          rw [names_length] at hj
          exact hj
        have hjne : j ≠ c.items.length - 1 := by
          intro hj
          rw [hj, hnameL] at h3
          injection h3 with h3
          exact hne h3.symm
        rw [hnames', List.getElem?_dropLast,
            if_pos (by rw [names_length]; omega)]
        exact h3
      · rw [hnames', List.getElem?_dropLast] at hn
        by_cases hj : j < (names nm c).length - 1
        · rw [if_pos hj] at hn
          have h3 := h2 j n hn
          have hne : n ≠ nm e := by
            intro he
            rw [he, hgetE] at h3
            injection h3 with h3
            rw [names_length] at hj
            omega
          rw [mapGet_mapRemove_ne hne]
          exact h3
        · rw [if_neg hj] at hn
          exact absurd hn (by simp)

theorem map_ne_nil_of_items_ne_nil {nm : α → Name} {c : NamedVec α}
    (h : InvGet nm c) (hne : c.items ≠ []) : c.map ≠ [] := by
  have hpos : 0 < c.items.length := List.length_pos.mpr hne
  have hx : c.items[0]? = some (c.items.get ⟨0, hpos⟩) := by
    rw [List.getElem?_eq_getElem hpos, List.get_eq_getElem]
  have hname : (names nm c)[0]? = some (nm (c.items.get ⟨0, hpos⟩)) := by
    rw [names_getElem?, hx]
    rfl
  have hget := h.2.2 0 _ hname
  have hmem := mem_of_mapGet_eq_some hget
  intro hmapnil
  rw [hmapnil] at hmem
  simp at hmem

theorem valuesMax_invGet {nm : α → Name} {c : NamedVec α} (h : InvGet nm c)
    (hne : c.items ≠ []) : valuesMax c.map = some (c.items.length - 1) := by
  have hmapne := map_ne_nil_of_items_ne_nil h hne
  cases hmx : valuesMax c.map with
  | none => exact absurd hmx (valuesMax_of_ne_nil hmapne)
  | some mx =>
      obtain ⟨hmem, hub⟩ := valuesMax_spec hmx
      rcases List.mem_map.mp hmem with ⟨p, hp, hps⟩
      have hgetp : mapGet c.map p.1 = some p.2 := mapGet_eq_some_of_mem h.1 hp
      have hmxlt : p.2 < c.items.length := h.lt_length hgetp
      have hpos : 0 < c.items.length := List.length_pos.mpr hne
      have hlt1 : c.items.length - 1 < c.items.length := by omega
      have hlast : c.items[c.items.length - 1]? =
          some (c.items.get ⟨c.items.length - 1, hlt1⟩) := by
        rw [List.getElem?_eq_getElem hlt1, List.get_eq_getElem]
      have hnx : (names nm c)[c.items.length - 1]? =
          some (nm (c.items.get ⟨c.items.length - 1, hlt1⟩)) := by
        rw [names_getElem?, hlast]
        rfl
      have hgx := h.2.2 _ _ hnx
      have hmemx : c.items.length - 1 ∈ c.map.map Prod.snd :=
        List.mem_map_of_mem Prod.snd (mem_of_mapGet_eq_some hgx)
      have hle := hub _ hmemx
      have heq : mx = c.items.length - 1 := by omega
      rw [heq]

theorem truncate_eq {nm : α → Name} {c : NamedVec α} {len : Nat} (h : InvGet nm c)
    (hlt : len < c.items.length) :
    truncate nm c len =
      some { map := removeNames nm (c.items.drop len) c.map,
             items := c.items.take len } := by
  have hne : c.items ≠ [] := by
    intro he
    rw [he] at hlt
    simp at hlt
  have hmax := valuesMax_invGet h hne
  have hcond : len ≤ c.items.length - 1 + 1 ∧
      c.items.length - 1 + 1 ≤ c.items.length := by omega
  have hslice : (c.items.drop len).take (c.items.length - 1 + 1 - len)
      = c.items.drop len := by
    rw [show c.items.length - 1 + 1 - len = c.items.length - len from by omega,
        ← List.length_drop, List.take_length]
  simp only [truncate, if_pos hlt, hmax, if_pos hcond, hslice]

theorem truncate_noop {nm : α → Name} {c : NamedVec α} {len : Nat}
    (hge : c.items.length ≤ len) : truncate nm c len = some c := by
  rw [truncate, if_neg (by omega)]

theorem invGet_truncate {nm : α → Name} {c c' : NamedVec α} {len : Nat}
    (h : InvGet nm c) (ht : truncate nm c len = some c') : InvGet nm c' := by
  by_cases hlt : len < c.items.length
  · rw [truncate_eq h hlt] at ht
    injection ht with ht
    rw [← ht]
    obtain ⟨hnd, h1, h2⟩ := h
    have hnames :
        names nm { map := removeNames nm (c.items.drop len) c.map,
                   items := c.items.take len }
          = (names nm c).take len := by
      simp [names]
    refine ⟨keysNodup_removeNames hnd nm _, fun n j hg => ?_, fun j n hn => ?_⟩
    · have hmem : (n, j) ∈ removeNames nm (c.items.drop len) c.map :=
        mem_of_mapGet_eq_some hg
      rw [mem_removeNames hnd] at hmem
      obtain ⟨hmem, hnot⟩ := hmem
      have hg0 : mapGet c.map n = some j := mapGet_eq_some_of_mem hnd hmem
      have h3 := h1 n j hg0
      have hjL : j < c.items.length := by
        obtain ⟨hj, -⟩ := List.getElem?_eq_some_iff.mp h3
        rw [names_length] at hj
        exact hj
      have hjlen : j < len := by
        by_contra hge
        push_neg at hge
        have hx : c.items[j]? = some (c.items.get ⟨j, hjL⟩) := by
          rw [List.getElem?_eq_getElem hjL, List.get_eq_getElem]
        have hxd : (c.items.drop len)[j - len]? =
            some (c.items.get ⟨j, hjL⟩) := by
          rw [List.getElem?_drop, show len + (j - len) = j from by omega]
          exact hx
        have hxmem : c.items.get ⟨j, hjL⟩ ∈ c.items.drop len :=
          List.mem_iff_getElem?.mpr ⟨_, hxd⟩
        have hnmx : nm (c.items.get ⟨j, hjL⟩) = n := by
          have h4 := h3
          rw [names_getElem?, hx, Option.map_some'] at h4
          injection h4 with h4
        exact hnot _ hxmem hnmx
      rw [hnames, List.getElem?_take, if_pos hjlen]
      exact h3
    · rw [hnames, List.getElem?_take] at hn
      by_cases hj : j < len
      · rw [if_pos hj] at hn
        have hg0 := h2 j n hn
        have hmem0 : (n, j) ∈ c.map := mem_of_mapGet_eq_some hg0
        have hnot : ∀ it ∈ c.items.drop len, nm it ≠ n := by
          intro it hit hname
          rcases List.mem_iff_getElem?.mp hit with ⟨k, hk⟩
          rw [List.getElem?_drop] at hk
          have hnk : (names nm c)[len + k]? = some n := by
            rw [names_getElem?, hk, Option.map_some', hname]
          have h4 := h2 _ _ hnk
          rw [hg0] at h4
          injection h4 with h4
          omega
        have hmem' : (n, j) ∈ removeNames nm (c.items.drop len) c.map :=
          (mem_removeNames hnd).mpr ⟨hmem0, hnot⟩
        exact mapGet_eq_some_of_mem (keysNodup_removeNames hnd nm _) hmem'
      · rw [if_neg hj] at hn
        exact absurd hn (by simp)
  · push_neg at hlt
    rw [truncate_noop hlt] at ht
    injection ht with ht
    rw [← ht]
    exact h

theorem name_from_lookup_eq {nm : α → Name} {c : NamedVec α} (h : InvGet nm c)
    {k : Lookup} {i : Nat} (hik : index_from_lookup c k = some i) :
    name_from_lookup nm c k = (names nm c)[i]? := by
  cases k with
  | name n =>
      rw [index_from_lookup] at hik
      rw [name_from_lookup, h.2.1 n i hik]
  | index j =>
      rw [index_from_lookup] at hik
      injection hik with hj
      subst hj
      rw [name_from_lookup, names_getElem?]

theorem swap_ok_same {nm : α → Name} {c : NamedVec α} {k1 k2 : Lookup} {i : Nat}
    (h1 : index_from_lookup c k1 = some i)
    (h2 : index_from_lookup c k2 = some i) :
    swap nm c k1 k2 = .ok c := by
  simp only [swap, h1, h2]
  simp

theorem swap_error_fst {nm : α → Name} {c : NamedVec α} {k1 k2 : Lookup}
    (h1 : index_from_lookup c k1 = none) : swap nm c k1 k2 = .error c := by
  simp only [swap, h1]

theorem swap_error_snd {nm : α → Name} {c : NamedVec α} {k1 k2 : Lookup} {i : Nat}
    (h1 : index_from_lookup c k1 = some i)
    (h2 : index_from_lookup c k2 = none) : swap nm c k1 k2 = .error c := by
  simp only [swap, h1, h2]

theorem swap_error_name_fst {nm : α → Name} {c : NamedVec α} {k1 k2 : Lookup}
    {i j : Nat} (h1 : index_from_lookup c k1 = some i)
    (h2 : index_from_lookup c k2 = some j) (hne : i ≠ j)
    (hs1 : name_from_lookup nm c k1 = none) : swap nm c k1 k2 = .error c := by
  simp only [swap, h1, h2, if_neg hne, hs1]

theorem swap_error_name_snd {nm : α → Name} {c : NamedVec α} {k1 k2 : Lookup}
    {i j : Nat} {n1 : Name} (h1 : index_from_lookup c k1 = some i)
    (h2 : index_from_lookup c k2 = some j) (hne : i ≠ j)
    (hs1 : name_from_lookup nm c k1 = some n1)
    (hs2 : name_from_lookup nm c k2 = none) : swap nm c k1 k2 = .error c := by
  simp only [swap, h1, h2, if_neg hne, hs1, hs2]

theorem swap_ok_distinct {nm : α → Name} {c : NamedVec α} {k1 k2 : Lookup}
    {i j : Nat} {n1 n2 : Name} (h : InvGet nm c)
    (h1 : index_from_lookup c k1 = some i)
    (h2 : index_from_lookup c k2 = some j)
    (hne : i ≠ j) (hi : i < c.items.length) (hj : j < c.items.length)
    (hn1 : (names nm c)[i]? = some n1) (hn2 : (names nm c)[j]? = some n2) :
    swap nm c k1 k2 =
      .ok { map := mapInsert (mapInsert c.map n1 j) n2 i,
            items := (c.items.set i c.items[j]).set j c.items[i] } := by
  have hs1 : name_from_lookup nm c k1 = some n1 := by
    rw [name_from_lookup_eq h h1, hn1]
  have hs2 : name_from_lookup nm c k2 = some n2 := by
    rw [name_from_lookup_eq h h2, hn2]
  simp only [swap, h1, h2, if_neg hne, hs1, hs2, dif_pos (And.intro hi hj)]

theorem invGet_swap_core {nm : α → Name} {c : NamedVec α} {i j : Nat}
    {n1 n2 : Name} (h : InvGet nm c) (hne : i ≠ j)
    (hi : i < c.items.length) (hj : j < c.items.length)
    (hn1 : (names nm c)[i]? = some n1) (hn2 : (names nm c)[j]? = some n2) :
    InvGet nm { map := mapInsert (mapInsert c.map n1 j) n2 i,
                items := (c.items.set i c.items[j]).set j c.items[i] } := by
  obtain ⟨hnd, h1, h2⟩ := h
  have hg1 : mapGet c.map n1 = some i := h2 i n1 hn1
  have hg2 : mapGet c.map n2 = some j := h2 j n2 hn2
  have hn12 : n1 ≠ n2 := by
    intro he
    rw [he, hg2] at hg1
    injection hg1 with hg1
    exact hne hg1.symm
  have ha : nm c.items[i] = n1 := by
    have h4 := hn1
    rw [names_getElem?, List.getElem?_eq_getElem hi, Option.map_some'] at h4
    exact Option.some.inj h4
  have hb : nm c.items[j] = n2 := by
    have h4 := hn2
    rw [names_getElem?, List.getElem?_eq_getElem hj, Option.map_some'] at h4
    exact Option.some.inj h4
  have hlen : (names nm c).length = c.items.length := names_length nm c
  have hnames :
      names nm { map := mapInsert (mapInsert c.map n1 j) n2 i,
                 items := (c.items.set i c.items[j]).set j c.items[i] }
        = ((names nm c).set i n2).set j n1 := by
    simp [names, ha, hb]
  have hmget : ∀ n, mapGet (mapInsert (mapInsert c.map n1 j) n2 i) n =
      if n = n2 then some i else if n = n1 then some j else mapGet c.map n := by
    intro n
    by_cases hv2 : n = n2
    · subst hv2
      rw [if_pos rfl, mapGet_mapInsert_self]
    · rw [if_neg hv2, mapGet_mapInsert_ne hv2]
      by_cases hv1 : n = n1
      · subst hv1
        rw [if_pos rfl, mapGet_mapInsert_self]
      · rw [if_neg hv1, mapGet_mapInsert_ne hv1]
  have hnames_t : ∀ t, (((names nm c).set i n2).set j n1)[t]? =
      if t = j then some n1 else if t = i then some n2
      else (names nm c)[t]? := by
    intro t
    rw [List.getElem?_set, List.getElem?_set]
    by_cases htj : j = t
    · rw [if_pos htj, if_pos (by rw [List.length_set, hlen]; exact hj),
          if_pos htj.symm]
    · rw [if_neg htj, if_neg (fun hh : t = j => htj hh.symm)]
      by_cases hti : i = t
      · rw [if_pos hti, if_pos (by rw [hlen]; exact hi), if_pos hti.symm]
      · rw [if_neg hti, if_neg (fun hh : t = i => hti hh.symm)]
  refine ⟨keysNodup_mapInsert (keysNodup_mapInsert hnd _ _) _ _,
          fun n t hg => ?_, fun t n hn => ?_⟩
  · rw [hmget n] at hg
    rw [hnames, hnames_t t]
    by_cases hv2 : n = n2
    · rw [if_pos hv2] at hg
      injection hg with hg
      subst hg
      rw [if_neg (fun hh : i = j => hne hh), if_pos rfl, hv2]
    · rw [if_neg hv2] at hg
      by_cases hv1 : n = n1
      · rw [if_pos hv1] at hg
        injection hg with hg
        subst hg
        rw [if_pos rfl, hv1]
      · rw [if_neg hv1] at hg
        have htne_i : t ≠ i := by
          intro he
          rw [he] at hg
          have h5 := h1 n i hg
          rw [hn1] at h5
          injection h5 with h5
          exact hv1 h5.symm
        have htne_j : t ≠ j := by
          intro he
          rw [he] at hg
          have h5 := h1 n j hg
          rw [hn2] at h5
          injection h5 with h5
          exact hv2 h5.symm
        rw [if_neg htne_j, if_neg htne_i]
        exact h1 n t hg
  · rw [hnames, hnames_t t] at hn
    rw [hmget n]
    by_cases htj : t = j
    · rw [if_pos htj] at hn
      injection hn with hn
      subst hn
      rw [if_neg (fun hh : n1 = n2 => hn12 hh), if_pos rfl, htj]
    · rw [if_neg htj] at hn
      by_cases hti : t = i
      · rw [if_pos hti] at hn
        injection hn with hn
        subst hn
        rw [if_pos rfl, hti]
      · rw [if_neg hti] at hn
        have h5 := h2 t n hn
        have hv2 : n ≠ n2 := by
          intro he
          rw [he, hg2] at h5
          injection h5 with h5
          exact htj h5.symm
        have hv1 : n ≠ n1 := by
          intro he
          rw [he, hg1] at h5
          injection h5 with h5
          exact hti h5.symm
        rw [if_neg hv2, if_neg hv1]
        exact h5

theorem index_lt_length_of_name_some {nm : α → Name} {c : NamedVec α}
    (h : InvGet nm c) {k : Lookup} {i : Nat} {n : Name}
    (hik : index_from_lookup c k = some i)
    (hs : name_from_lookup nm c k = some n) : i < c.items.length := by
  cases k with
  | name n0 =>
      rw [index_from_lookup] at hik
      exact h.lt_length hik
  | index t =>
      rw [index_from_lookup] at hik
      injection hik with ht
      subst ht
      rw [name_from_lookup] at hs
      rcases Option.map_eq_some'.mp hs with ⟨x, hx, -⟩
      obtain ⟨hl, -⟩ := List.getElem?_eq_some_iff.mp hx
      exact hl

theorem invGet_swap {nm : α → Name} {c c' : NamedVec α} {k1 k2 : Lookup}
    (h : InvGet nm c) (hs : swap nm c k1 k2 = .ok c') : InvGet nm c' := by
  cases hi1 : index_from_lookup c k1 with
  | none =>
      rw [swap_error_fst hi1] at hs
      exact Except.noConfusion hs
  | some i =>
    cases hi2 : index_from_lookup c k2 with
    | none =>
        rw [swap_error_snd hi1 hi2] at hs
        exact Except.noConfusion hs
    | some j =>
      by_cases hij : i = j
      · subst hij
        rw [swap_ok_same hi1 hi2] at hs
        injection hs with hs
        rw [← hs]
        exact h
      · cases hs1 : name_from_lookup nm c k1 with
        | none =>
            rw [swap_error_name_fst hi1 hi2 hij hs1] at hs
            exact Except.noConfusion hs
        | some n1 =>
          cases hs2 : name_from_lookup nm c k2 with
          | none =>
              rw [swap_error_name_snd hi1 hi2 hij hs1 hs2] at hs
              exact Except.noConfusion hs
          | some n2 =>
            have hi : i < c.items.length :=
              index_lt_length_of_name_some h hi1 hs1
            have hj : j < c.items.length :=
              index_lt_length_of_name_some h hi2 hs2
            have hn1' : (names nm c)[i]? = some n1 := by
              rw [← name_from_lookup_eq h hi1]
              exact hs1
            have hn2' : (names nm c)[j]? = some n2 := by
              rw [← name_from_lookup_eq h hi2]
              exact hs2
            rw [swap_ok_distinct h hi1 hi2 hij hi hj hn1' hn2'] at hs
            injection hs with hs
            rw [← hs]
            exact invGet_swap_core h hij hi hj hn1' hn2'

theorem invGet_reachable {nm : α → Name} {c : NamedVec α} (h : Reachable nm c) :
    InvGet nm c := by
  induction h with
  | newStep => exact invGet_new nm
  | withCapacityStep n => exact invGet_new nm
  | pushStep hr hp ih => exact invGet_push ih hp
  | popStep hr ih => exact invGet_pop ih
  | truncateStep hr ht ih => exact invGet_truncate ih ht
  | clearStep hr ih => exact invGet_clear nm _
  | swapStep hr hsw ih => exact invGet_swap ih hsw
  | reserveStep n hr ih => exact ih
  | shrinkStep hr ih => exact ih

/-! ### Claim theorems -/

/-- Claim C1: every collection reachable from the empty collection by any
sequence of the public operations (`push`, `pop`, `truncate`, `clear`, `swap`,
`reserve`, `shrink_to_fit`) satisfies the standing invariant: for every element
at position `i` the mapping contains its name bound to `i`, and the mapping
contains no other entries (so no stale and no duplicate names). -/
theorem invariant_of_reachable {nm : α → Name} {c : NamedVec α}
    (h : Reachable nm c) : Inv nm c :=
  (Inv_iff_invGet nm c).mpr (invGet_reachable h)

/-- Witness for claim C1: the invariant holds at the concrete collection
reached by pushing one element into the empty collection. -/
theorem invariant_of_reachable_witness :
    Inv pairName { map := [("a", 0)], items := [("a", 1)] } :=
  invariant_of_reachable
    (@Reachable.pushStep (Name × Nat) pairName NamedVec.new
      { map := [("a", 0)], items := [("a", 1)] } ("a", 1) Reachable.newStep rfl)

theorem swap_panic_cases {nm : α → Name} {c : NamedVec α} {k1 k2 : Lookup}
    (hG : InvGet nm c) :
    (swap nm c k1 k2 = .error c ∧
      (nameAbsent c k1 ∨ nameAbsent c k2 ∨
        (∃ i j, index_from_lookup c k1 = some i ∧
          index_from_lookup c k2 = some j ∧ i ≠ j ∧
          (posOut c k1 ∨ posOut c k2)))) ∨
    ((∃ c', swap nm c k1 k2 = .ok c') ∧
      ¬(nameAbsent c k1 ∨ nameAbsent c k2 ∨
        (∃ i j, index_from_lookup c k1 = some i ∧
          index_from_lookup c k2 = some j ∧ i ≠ j ∧
          (posOut c k1 ∨ posOut c k2)))) := by
  cases hi1 : index_from_lookup c k1 with
  | none =>
      left
      refine ⟨swap_error_fst hi1, Or.inl ?_⟩
      cases k1 with
      | name n =>
          rw [index_from_lookup] at hi1
          exact hi1
      | index t =>
          rw [index_from_lookup] at hi1
          exact Option.noConfusion hi1
  | some i =>
    cases hi2 : index_from_lookup c k2 with
    | none =>
        left
        refine ⟨swap_error_snd hi1 hi2, Or.inr (Or.inl ?_)⟩
        cases k2 with
        | name n =>
            rw [index_from_lookup] at hi2
            exact hi2
        | index t =>
            rw [index_from_lookup] at hi2
            exact Option.noConfusion hi2
    | some j =>
      by_cases hij : i = j
      · subst hij
        right
        refine ⟨⟨c, swap_ok_same hi1 hi2⟩, ?_⟩
        rintro (habs | habs | ⟨i', j', hi', hj', hne', -⟩)
        · cases k1 with
          | name n =>
              have habs' : mapGet c.map n = none := habs
              rw [index_from_lookup, habs'] at hi1
              exact Option.noConfusion hi1
          | index t => exact habs
        · cases k2 with
          | name n =>
              have habs' : mapGet c.map n = none := habs
              rw [index_from_lookup, habs'] at hi2
              exact Option.noConfusion hi2
          | index t => exact habs
        · injection hi' with hi'
          injection hj' with hj'
          exact hne' (hi'.symm.trans hj')
      · cases hs1 : name_from_lookup nm c k1 with
        | none =>
            left
            refine ⟨swap_error_name_fst hi1 hi2 hij hs1,
              Or.inr (Or.inr ⟨i, j, rfl, rfl, hij, Or.inl ?_⟩)⟩
            cases k1 with
            | name n =>
                rw [name_from_lookup] at hs1
                exact Option.noConfusion hs1
            | index t =>
                rw [index_from_lookup] at hi1
                injection hi1 with ht
                rw [name_from_lookup] at hs1
                show c.items.length ≤ t
                by_contra hlt
                push_neg at hlt
                rw [List.getElem?_eq_getElem hlt, Option.map_some'] at hs1
                exact Option.noConfusion hs1
        | some n1 =>
          cases hs2 : name_from_lookup nm c k2 with
          | none =>
              left
              refine ⟨swap_error_name_snd hi1 hi2 hij hs1 hs2,
                Or.inr (Or.inr ⟨i, j, rfl, rfl, hij, Or.inr ?_⟩)⟩
              cases k2 with
              | name n =>
                  rw [name_from_lookup] at hs2
                  exact Option.noConfusion hs2
              | index t =>
                  rw [index_from_lookup] at hi2
                  injection hi2 with ht
                  rw [name_from_lookup] at hs2
                  show c.items.length ≤ t
                  by_contra hlt
                  push_neg at hlt
                  rw [List.getElem?_eq_getElem hlt, Option.map_some'] at hs2
                  exact Option.noConfusion hs2
          | some n2 =>
              right
              have hi : i < c.items.length :=
                index_lt_length_of_name_some hG hi1 hs1
              have hj : j < c.items.length :=
                index_lt_length_of_name_some hG hi2 hs2
              have hn1' : (names nm c)[i]? = some n1 := by
                rw [← name_from_lookup_eq hG hi1]
                exact hs1
              have hn2' : (names nm c)[j]? = some n2 := by
                rw [← name_from_lookup_eq hG hi2]
                exact hs2
              refine ⟨⟨_, swap_ok_distinct hG hi1 hi2 hij hi hj hn1' hn2'⟩, ?_⟩
              rintro (habs | habs | ⟨i', j', hi', hj', hne', hpos⟩)
              · cases k1 with
                | name n =>
                    have habs' : mapGet c.map n = none := habs
                    rw [index_from_lookup, habs'] at hi1
                    exact Option.noConfusion hi1
                | index t => exact habs
              · cases k2 with
                | name n =>
                    have habs' : mapGet c.map n = none := habs
                    rw [index_from_lookup, habs'] at hi2
                    exact Option.noConfusion hi2
                | index t => exact habs
              · rcases hpos with hp | hp
                · cases k1 with
                  | name n => exact hp
                  | index t =>
                      rw [index_from_lookup] at hi1
                      injection hi1 with ht
                      have hp' : c.items.length ≤ t := hp
                      omega
                · cases k2 with
                  | name n => exact hp
                  | index t =>
                      rw [index_from_lookup] at hi2
                      injection hi2 with ht
                      have hp' : c.items.length ≤ t := hp
                      omega

/-- Claim C3: under the standing invariant, `swap` panics exactly when some key
is a name absent from the mapping, or the two keys resolve to distinct
positions and some key is an out-of-range position.  In particular `swap i i`
with `i` out of range returns normally with the collection unchanged, and
whenever `swap` panics the collection is unchanged at the moment of the panic
(the `.error` payload equals the original state). -/
theorem swap_panic_characterization {nm : α → Name} {c : NamedVec α}
    {k1 k2 : Lookup} (h : Inv nm c) :
    (∀ s, swap nm c k1 k2 = .error s → s = c) ∧
    ((∃ s, swap nm c k1 k2 = .error s) ↔
      (nameAbsent c k1 ∨ nameAbsent c k2 ∨
        (∃ i j, index_from_lookup c k1 = some i ∧
          index_from_lookup c k2 = some j ∧ i ≠ j ∧
          (posOut c k1 ∨ posOut c k2)))) ∧
    (∀ i, c.items.length ≤ i →
      swap nm c (Lookup.index i) (Lookup.index i) = .ok c) := by
  have hG := (Inv_iff_invGet nm c).mp h
  have hsame : ∀ i : Nat, c.items.length ≤ i →
      swap nm c (Lookup.index i) (Lookup.index i) = .ok c := by
    intro i _
    exact swap_ok_same rfl rfl
  rcases @swap_panic_cases α nm c k1 k2 hG with ⟨herr, hrhs⟩ | ⟨⟨c', hok⟩, hnrhs⟩
  · refine ⟨?_, ?_, hsame⟩
    · intro s hs
      rw [herr] at hs
      injection hs with hs
      exact hs.symm
    · exact ⟨fun _ => hrhs, fun _ => ⟨c, herr⟩⟩
  · refine ⟨?_, ?_, hsame⟩
    · intro s hs
      rw [hok] at hs
      exact Except.noConfusion hs
    · constructor
      · rintro ⟨s, hs⟩
        rw [hok] at hs
        exact Except.noConfusion hs
      · intro hr
        exact absurd hr hnrhs

/-- Witness for claim C3 at a concrete collection and keys. -/
theorem swap_panic_characterization_witness :
    (∀ s, swap pairName cAB (Lookup.name "zz") (Lookup.index 0) = .error s →
      s = cAB) ∧
    ((∃ s, swap pairName cAB (Lookup.name "zz") (Lookup.index 0) = .error s) ↔
      (nameAbsent cAB (Lookup.name "zz") ∨ nameAbsent cAB (Lookup.index 0) ∨
        (∃ i j, index_from_lookup cAB (Lookup.name "zz") = some i ∧
          index_from_lookup cAB (Lookup.index 0) = some j ∧ i ≠ j ∧
          (posOut cAB (Lookup.name "zz") ∨ posOut cAB (Lookup.index 0))))) ∧
    (∀ i, cAB.items.length ≤ i →
      swap pairName cAB (Lookup.index i) (Lookup.index i) = .ok cAB) :=
  swap_panic_characterization (by decide)

/-- Claim C2 is refuted by the code (which here also contradicts its own
`# Panics` documentation): on `cAB` (length 2, invariant holds) both position
keys `5` fail to resolve, yet `swap` returns normally and silently does
nothing instead of panicking. -/
theorem swap_equal_out_of_range_returns_normally :
    Inv pairName cAB ∧ posOut cAB (Lookup.index 5) ∧
      swap pairName cAB (Lookup.index 5) (Lookup.index 5) = .ok cAB :=
  ⟨by decide, (by decide : cAB.items.length ≤ 5), rfl⟩

/-- Claim C4: for a collection satisfying the standing invariant and any
target length at or above the current length (including every call on an empty
collection), `truncate` returns normally — no panic — and leaves the
collection entirely unchanged, sequence and mapping alike. -/
theorem truncate_noop_of_ge {nm : α → Name} {c : NamedVec α} {len : Nat}
    (_h : Inv nm c) (hge : c.items.length ≤ len) :
    truncate nm c len = some c :=
  truncate_noop hge

/-- Witness for claim C4: truncating the empty collection to length 0. -/
theorem truncate_noop_of_ge_witness :
    truncate pairName (NamedVec.new (α := Name × Nat)) 0 = some NamedVec.new :=
  truncate_noop_of_ge (by decide) (by decide)

/-- Claim C5: truncating a collection of length `L` to `len < L` keeps exactly
the first `len` elements, removes from the mapping exactly the names of the
elements at positions `len .. L-1` (kept names still resolve to their original
positions, no other mapping entry changes), and afterwards each discarded name
is not found by name lookup and each position `≥ len` is out of range. -/
theorem truncate_shrink_spec {nm : α → Name} {c : NamedVec α} {len : Nat}
    (h : Inv nm c) (hlt : len < c.items.length) :
    ∃ c', truncate nm c len = some c' ∧
      c'.items = c.items.take len ∧
      (∀ i n, len ≤ i → (names nm c)[i]? = some n →
        mapGet c'.map n = none ∧ c'.get (Lookup.name n) = none) ∧
      (∀ n, (∀ i, len ≤ i → (names nm c)[i]? ≠ some n) →
        mapGet c'.map n = mapGet c.map n) ∧
      (∀ i n, i < len → (names nm c)[i]? = some n →
        mapGet c'.map n = some i) ∧
      (∀ j, len ≤ j → c'.get (Lookup.index j) = none) := by
  have hG := (Inv_iff_invGet nm c).mp h
  have ht := truncate_eq hG hlt
  have hG' := invGet_truncate hG ht
  refine ⟨_, ht, rfl, ?_, ?_, ?_, ?_⟩
  · intro i n hge hni
    have hiL : i < (names nm c).length := by
      obtain ⟨hl, -⟩ := List.getElem?_eq_some_iff.mp hni
      exact hl
    rw [names_length] at hiL
    have hx : c.items[i]? = some (c.items[i]) := List.getElem?_eq_getElem hiL
    have hnmx : nm (c.items[i]) = n := by
      have h4 := hni
      rw [names_getElem?, hx, Option.map_some'] at h4
      exact Option.some.inj h4
    have hxd : (c.items.drop len)[i - len]? = some (c.items[i]) := by
      rw [List.getElem?_drop, show len + (i - len) = i from by omega]
      exact hx
    have hxmem : c.items[i] ∈ c.items.drop len :=
      List.mem_iff_getElem?.mpr ⟨_, hxd⟩
    have hnone : mapGet (removeNames nm (c.items.drop len) c.map) n = none :=
      mapGet_removeNames_of_mem hG.1 ⟨_, hxmem, hnmx⟩
    refine ⟨hnone, ?_⟩
    simp only [NamedVec.get, index_from_lookup]
    rw [hnone]
    rfl
  · intro n hni
    apply mapGet_removeNames_of_not_mem
    intro it hit hname
    rcases List.mem_iff_getElem?.mp hit with ⟨k, hk⟩
    rw [List.getElem?_drop] at hk
    have hnk : (names nm c)[len + k]? = some n := by
      rw [names_getElem?, hk, Option.map_some', hname]
    exact hni (len + k) (by omega) hnk
  · intro i n hilen hni
    have hn' : ((names nm c).take len)[i]? = some n := by
      rw [List.getElem?_take, if_pos hilen]
      exact hni
    have htake : names nm { map := removeNames nm (c.items.drop len) c.map,
                            items := c.items.take len }
        = (names nm c).take len := by
      simp [names]
    exact hG'.2.2 i n (htake ▸ hn')
  · intro j hge
    show (c.items.take len)[j]? = none
    apply List.getElem?_eq_none
    simp only [List.length_take]
    omega

/-- Witness for claim C5: the five-element collection truncated to length 2. -/
theorem truncate_shrink_spec_witness :
    ∃ c', truncate pairName cFive 2 = some c' ∧
      c'.items = cFive.items.take 2 ∧
      (∀ i n, 2 ≤ i → (names pairName cFive)[i]? = some n →
        mapGet c'.map n = none ∧ c'.get (Lookup.name n) = none) ∧
      (∀ n, (∀ i, 2 ≤ i → (names pairName cFive)[i]? ≠ some n) →
        mapGet c'.map n = mapGet cFive.map n) ∧
      (∀ i n, i < 2 → (names pairName cFive)[i]? = some n →
        mapGet c'.map n = some i) ∧
      (∀ j, 2 ≤ j → c'.get (Lookup.index j) = none) :=
  truncate_shrink_spec (by decide) (by decide)

/-- Claim C6: `push` is an upsert.  If the element's name is already bound to
position `i`, the element at `i` is replaced in place and everything else —
other elements, positions, the mapping, the length — is unchanged; otherwise
the element is appended at position `old_length` and exactly one mapping entry
is added.  `push` never fails, and the length grows by at most one. -/
theorem push_upsert_spec {nm : α → Name} {c : NamedVec α} (h : Inv nm c)
    (item : α) :
    (∀ i, mapGet c.map (nm item) = some i →
      ∃ c', push nm c item = some c' ∧
        c'.map = c.map ∧
        c'.items.length = c.items.length ∧
        c'.items[i]? = some item ∧
        (∀ j, j ≠ i → c'.items[j]? = c.items[j]?)) ∧
    (mapGet c.map (nm item) = none →
      ∃ c', push nm c item = some c' ∧
        c'.items = c.items ++ [item] ∧
        c'.items.length = c.items.length + 1 ∧
        mapGet c'.map (nm item) = some c.items.length ∧
        (∀ n, n ≠ nm item → mapGet c'.map n = mapGet c.map n)) ∧
    (∃ c', push nm c item = some c' ∧
      c'.items.length ≤ c.items.length + 1) := by
  have hG := (Inv_iff_invGet nm c).mp h
  refine ⟨fun i hget => ?_, fun hget => ?_, ?_⟩
  · have hlt : i < c.items.length := hG.lt_length hget
    refine ⟨_, push_replace hget hlt, rfl, List.length_set c.items i item, ?_, ?_⟩
    · exact List.getElem?_set_self hlt
    · intro j hji
      exact List.getElem?_set_ne (fun hh => hji hh.symm)
  · refine ⟨_, push_append hget, rfl, by simp, ?_, ?_⟩
    · exact mapGet_mapInsert_self c.map (nm item) c.items.length
    · intro n hn
      exact mapGet_mapInsert_ne hn
  · cases hget : mapGet c.map (nm item) with
    | some i =>
        refine ⟨_, push_replace hget (hG.lt_length hget), ?_⟩
        simp
    | none =>
        refine ⟨_, push_append hget, ?_⟩
        simp

/-- Witness for claim C6 on the concrete two-element collection. -/
theorem push_upsert_spec_witness :
    (∀ i, mapGet cAB.map (pairName ("a", 99)) = some i →
      ∃ c', push pairName cAB ("a", 99) = some c' ∧
        c'.map = cAB.map ∧
        c'.items.length = cAB.items.length ∧
        c'.items[i]? = some ("a", 99) ∧
        (∀ j, j ≠ i → c'.items[j]? = cAB.items[j]?)) ∧
    (mapGet cAB.map (pairName ("a", 99)) = none →
      ∃ c', push pairName cAB ("a", 99) = some c' ∧
        c'.items = cAB.items ++ [("a", 99)] ∧
        c'.items.length = cAB.items.length + 1 ∧
        mapGet c'.map (pairName ("a", 99)) = some cAB.items.length ∧
        (∀ n, n ≠ pairName ("a", 99) → mapGet c'.map n = mapGet cAB.map n)) ∧
    (∃ c', push pairName cAB ("a", 99) = some c' ∧
      c'.items.length ≤ cAB.items.length + 1) :=
  push_upsert_spec (by decide) ("a", 99)

/-- Claim C7: `pop` on an empty collection reports `none` and leaves the
collection unchanged without aborting; on a nonempty collection of length `L`
it returns the element at position `L-1`, removes exactly that element's name
from the mapping, leaves all other elements and entries unchanged, and
decreases the length by exactly one. -/
theorem pop_spec {nm : α → Name} {c : NamedVec α} (h : Inv nm c) :
    (c.items = [] → pop nm c = (none, c)) ∧
    (∀ e, c.items[c.items.length - 1]? = some e →
      ∃ c₂, pop nm c = (some e, c₂) ∧
        c₂.items = c.items.dropLast ∧
        c₂.items.length = c.items.length - 1 ∧
        (∀ j, j < c.items.length - 1 → c₂.items[j]? = c.items[j]?) ∧
        mapGet c₂.map (nm e) = none ∧
        (∀ n, n ≠ nm e → mapGet c₂.map n = mapGet c.map n)) := by
  have hG := (Inv_iff_invGet nm c).mp h
  refine ⟨pop_empty, fun e he => ?_⟩
  have hl : c.items.getLast? = some e := by
    rw [List.getLast?_eq_getElem?]
    exact he
  refine ⟨_, pop_nonempty hl, rfl, List.length_dropLast c.items, ?_, ?_, ?_⟩
  · intro j hj
    rw [List.getElem?_dropLast, if_pos hj]
  · exact mapGet_mapRemove_self hG.1 (nm e)
  · intro n hn
    exact mapGet_mapRemove_ne hn

/-- Witness for claim C7 on the concrete two-element collection. -/
theorem pop_spec_witness :
    (cAB.items = [] → pop pairName cAB = (none, cAB)) ∧
    (∀ e, cAB.items[cAB.items.length - 1]? = some e →
      ∃ c₂, pop pairName cAB = (some e, c₂) ∧
        c₂.items = cAB.items.dropLast ∧
        c₂.items.length = cAB.items.length - 1 ∧
        (∀ j, j < cAB.items.length - 1 → c₂.items[j]? = cAB.items[j]?) ∧
        mapGet c₂.map (pairName e) = none ∧
        (∀ n, n ≠ pairName e → mapGet c₂.map n = mapGet cAB.map n)) :=
  pop_spec (by decide)

/-- Claim C8 as stated is refuted at a concrete input: with "a" (payload 10) at
position 0 and "b" (payload 20) at position 1, `swap("a","b")` leaves `get "a"`
returning the element named "a" — the element formerly at position 0, now
stored at position 1 — which differs from the element formerly at position 1. -/
theorem swap_cross_get_counterexample :
    swap pairName cAB (Lookup.name "a") (Lookup.name "b") =
      .ok { map := [("a", 1), ("b", 0)], items := [("b", 20), ("a", 10)] } ∧
    NamedVec.get { map := [("a", 1), ("b", 0)], items := [("b", 20), ("a", 10)] }
      (Lookup.name "a") = some ("a", 10) ∧
    cAB.items[1]? = some ("b", 20) ∧
    some (("a", 10) : Name × Nat) ≠ some (("b", 20) : Name × Nat) :=
  ⟨rfl, by decide, by decide, by decide⟩

/-- Claim C8 (amended): swapping two keys that resolve to distinct in-range
positions `i`, `j` exchanges the two elements, repoints exactly their two
names (the name of the former `i`-element to `j` and vice versa), and leaves
every other element and mapping entry unchanged; `get` on the first name now
resolves through position `j` and returns the element formerly at position
`i` (the element carrying that name), not the element formerly at `j`. -/
theorem swap_cross_spec {nm : α → Name} {c : NamedVec α} {k1 k2 : Lookup}
    {i j : Nat} (h : Inv nm c)
    (h1 : index_from_lookup c k1 = some i)
    (h2 : index_from_lookup c k2 = some j)
    (hne : i ≠ j) (hi : i < c.items.length) (hj : j < c.items.length) :
    ∃ c' n1 n2, swap nm c k1 k2 = .ok c' ∧
      (names nm c)[i]? = some n1 ∧ (names nm c)[j]? = some n2 ∧
      c'.items[i]? = c.items[j]? ∧ c'.items[j]? = c.items[i]? ∧
      (∀ t, t ≠ i → t ≠ j → c'.items[t]? = c.items[t]?) ∧
      c'.items.length = c.items.length ∧
      mapGet c'.map n1 = some j ∧ mapGet c'.map n2 = some i ∧
      (∀ n, n ≠ n1 → n ≠ n2 → mapGet c'.map n = mapGet c.map n) ∧
      c'.get (Lookup.name n1) = c.items[i]? := by
  have hG := (Inv_iff_invGet nm c).mp h
  have hn1 : (names nm c)[i]? = some (nm c.items[i]) := by
    rw [names_getElem?, List.getElem?_eq_getElem hi, Option.map_some']
  have hn2 : (names nm c)[j]? = some (nm c.items[j]) := by
    rw [names_getElem?, List.getElem?_eq_getElem hj, Option.map_some']
  have hg1 : mapGet c.map (nm c.items[i]) = some i := hG.2.2 i _ hn1
  have hg2 : mapGet c.map (nm c.items[j]) = some j := hG.2.2 j _ hn2
  have hn12 : nm c.items[i] ≠ nm c.items[j] := by
    intro he
    rw [he, hg2] at hg1
    exact hne (Option.some.inj hg1).symm
  have hok := swap_ok_distinct hG h1 h2 hne hi hj hn1 hn2
  refine ⟨_, nm c.items[i], nm c.items[j], hok, hn1, hn2, ?_, ?_, ?_, ?_, ?_,
          ?_, ?_, ?_⟩
  · show ((c.items.set i c.items[j]).set j c.items[i])[i]? = c.items[j]?
    rw [List.getElem?_set_ne (fun hh : j = i => hne hh.symm),
        List.getElem?_set_self hi, List.getElem?_eq_getElem hj]
  · show ((c.items.set i c.items[j]).set j c.items[i])[j]? = c.items[i]?
    rw [List.getElem?_set_self (by rw [List.length_set]; exact hj),
        List.getElem?_eq_getElem hi]
  · intro t hti htj
    show ((c.items.set i c.items[j]).set j c.items[i])[t]? = c.items[t]?
    rw [List.getElem?_set_ne (fun hh : j = t => htj hh.symm),
        List.getElem?_set_ne (fun hh : i = t => hti hh.symm)]
  · show ((c.items.set i c.items[j]).set j c.items[i]).length = c.items.length
    rw [List.length_set, List.length_set]
  · show mapGet (mapInsert (mapInsert c.map (nm c.items[i]) j)
        (nm c.items[j]) i) (nm c.items[i]) = some j
    rw [mapGet_mapInsert_ne hn12, mapGet_mapInsert_self]
  · show mapGet (mapInsert (mapInsert c.map (nm c.items[i]) j)
        (nm c.items[j]) i) (nm c.items[j]) = some i
    rw [mapGet_mapInsert_self]
  · intro n hne1 hne2
    show mapGet (mapInsert (mapInsert c.map (nm c.items[i]) j)
        (nm c.items[j]) i) n = mapGet c.map n
    rw [mapGet_mapInsert_ne hne2, mapGet_mapInsert_ne hne1]
  · simp only [NamedVec.get, index_from_lookup]
    rw [mapGet_mapInsert_ne hn12, mapGet_mapInsert_self]
    show ((c.items.set i c.items[j]).set j c.items[i])[j]? = c.items[i]?
    rw [List.getElem?_set_self (by rw [List.length_set]; exact hj),
        List.getElem?_eq_getElem hi]

/-- Witness for the amended claim C8 at the "a"/"b" collection. -/
theorem swap_cross_spec_witness :
    ∃ c' n1 n2,
      swap pairName cAB (Lookup.name "a") (Lookup.name "b") = .ok c' ∧
      (names pairName cAB)[0]? = some n1 ∧
      (names pairName cAB)[1]? = some n2 ∧
      c'.items[0]? = cAB.items[1]? ∧ c'.items[1]? = cAB.items[0]? ∧
      (∀ t, t ≠ 0 → t ≠ 1 → c'.items[t]? = cAB.items[t]?) ∧
      c'.items.length = cAB.items.length ∧
      mapGet c'.map n1 = some 1 ∧ mapGet c'.map n2 = some 0 ∧
      (∀ n, n ≠ n1 → n ≠ n2 → mapGet c'.map n = mapGet cAB.map n) ∧
      c'.get (Lookup.name n1) = cAB.items[0]? :=
  swap_cross_spec (by decide) (by decide) (by decide) (by decide) (by decide)
    (by decide)

/-- Claim C9: when both keys resolve to the same in-range position (a key
swapped with itself, or a name key and a position key denoting the same
element), `swap` is a no-op: the collection is returned exactly unchanged. -/
theorem swap_same_position_noop {nm : α → Name} {c : NamedVec α}
    {k1 k2 : Lookup} {i : Nat} (_h : Inv nm c)
    (h1 : index_from_lookup c k1 = some i)
    (h2 : index_from_lookup c k2 = some i)
    (_hi : i < c.items.length) :
    swap nm c k1 k2 = .ok c :=
  swap_ok_same h1 h2

/-- Witness for claim C9: a name key and a position key denoting the same
element. -/
theorem swap_same_position_noop_witness :
    swap pairName cAB (Lookup.name "a") (Lookup.index 0) = .ok cAB :=
  @swap_same_position_noop (Name × Nat) pairName cAB (Lookup.name "a")
    (Lookup.index 0) 0 (by decide) (by decide) (by decide) (by decide)

theorem roundtrip_core {nm : α → Name} {c : NamedVec α} (hG : InvGet nm c)
    {e : α} (hl : c.items.getLast? = some e) :
    ∃ c₂, push nm { map := mapRemove c.map (nm e), items := c.items.dropLast } e
        = some c₂ ∧
      c₂.items = c.items ∧
      (∀ p, p ∈ c₂.map ↔ p ∈ c.map) ∧
      (∀ n, mapGet c₂.map n = mapGet c.map n) := by
  have he' : c.items[c.items.length - 1]? = some e := by
    rw [← List.getLast?_eq_getElem?]
    exact hl
  have hname : (names nm c)[c.items.length - 1]? = some (nm e) := by
    rw [names_getElem?, he']
    rfl
  have hgetE : mapGet c.map (nm e) = some (c.items.length - 1) :=
    hG.2.2 _ _ hname
  have hmemE : (nm e, c.items.length - 1) ∈ c.map :=
    mem_of_mapGet_eq_some hgetE
  have hget1 : mapGet (mapRemove c.map (nm e)) (nm e) = none :=
    mapGet_mapRemove_self hG.1 _
  have hpush := @push_append α nm
    { map := mapRemove c.map (nm e), items := c.items.dropLast } e hget1
  have hitems : c.items.dropLast ++ [e] = c.items :=
    List.dropLast_append_getLast? e (Option.mem_def.mpr hl)
  have hmap2 : mapInsert (mapRemove c.map (nm e)) (nm e) c.items.dropLast.length
      = mapRemove c.map (nm e) ++ [(nm e, c.items.length - 1)] := by
    rw [List.length_dropLast]
    exact mapInsert_of_not_mem (mapGet_eq_none_iff.mp hget1)
  refine ⟨_, hpush, hitems, ?_, ?_⟩
  · intro p
    show p ∈ mapInsert (mapRemove c.map (nm e)) (nm e) c.items.dropLast.length
        ↔ p ∈ c.map
    rw [hmap2, List.mem_append, mem_mapRemove hG.1, List.mem_singleton]
    constructor
    · rintro (⟨hp, -⟩ | rfl)
      · exact hp
      · exact hmemE
    · intro hp
      obtain ⟨p1, p2⟩ := p
      by_cases hpk : p1 = nm e
      · right
        subst hpk
        have hg := mapGet_eq_some_of_mem hG.1 hp
        rw [hgetE] at hg
        rw [Prod.mk.injEq]
        exact ⟨rfl, (Option.some.inj hg).symm⟩
      · exact Or.inl ⟨hp, hpk⟩
  · intro n
    show mapGet
      (mapInsert (mapRemove c.map (nm e)) (nm e) c.items.dropLast.length) n
        = mapGet c.map n
    by_cases hne : n = nm e
    · subst hne
      rw [mapGet_mapInsert_self, List.length_dropLast, hgetE]
    · rw [mapGet_mapInsert_ne hne, mapGet_mapRemove_ne hne]

/-- Claim C10: for a nonempty collection satisfying the standing invariant,
`pop` followed by `push` of the popped element restores the original sequence
exactly and restores the mapping to one equal to the original as a hash map:
the same set of entries, hence the same lookup result for every name. -/
theorem pop_push_roundtrip {nm : α → Name} {c : NamedVec α} (h : Inv nm c)
    (hne : c.items ≠ []) :
    ∃ e c₁ c₂, pop nm c = (some e, c₁) ∧ push nm c₁ e = some c₂ ∧
      c₂.items = c.items ∧
      (∀ p, p ∈ c₂.map ↔ p ∈ c.map) ∧
      (∀ n, mapGet c₂.map n = mapGet c.map n) := by
  have hG := (Inv_iff_invGet nm c).mp h
  have hpos : 0 < c.items.length := List.length_pos.mpr hne
  have hlt : c.items.length - 1 < c.items.length := by omega
  have hl : c.items.getLast? = some c.items[c.items.length - 1] := by
    rw [List.getLast?_eq_getElem?, List.getElem?_eq_getElem hlt]
  obtain ⟨c₂, hpush, hitems, hmem, hget⟩ := roundtrip_core hG hl
  exact ⟨_, _, c₂, pop_nonempty hl, hpush, hitems, hmem, hget⟩

/-- Witness for claim C10 on the concrete two-element collection. -/
theorem pop_push_roundtrip_witness :
    ∃ e c₁ c₂, pop pairName cAB = (some e, c₁) ∧
      push pairName c₁ e = some c₂ ∧
      c₂.items = cAB.items ∧
      (∀ p, p ∈ c₂.map ↔ p ∈ cAB.map) ∧
      (∀ n, mapGet c₂.map n = mapGet cAB.map n) :=
  pop_push_roundtrip (by decide) (by decide)

end NamedVecRs
